import Mathlib

/-!
# Verification of the alldata-proxy-server response cache and its callers

This file embeds the persistent response cache of the repository and the
request-handling code that calls it, and proves the specified properties.

Two layers are embedded:

* The Cache Gateway / Metadata Index / Blob Store / Eviction Engine
  (`cacheManager.js`). That file is not among the repository sources
  available here (only its callers `src/middleware/cache.js`,
  `src/routes/cache.js` and `src/server.js` are), so those components are
  modelled from the specification (sections 3, 4 and 8 of the spec); each
  such definition carries a doc comment starting `Modelled from the spec:`.
* The caller layer (`cacheMiddleware`, the startup IIFE, `isApiRequest`
  from `src/middleware/cache.js`, and the proxy dispatch of
  `src/server.js`), which is embedded directly from the source.

String manipulation is embedded over `List Char` by structural recursion so
that every definition evaluates inside the kernel.
-/

namespace AlldataProxy

/-! ## Character-list string helpers -/

/-- Does `needle` match the front of `hay`? (List-level helper.) -/
def matchesFront : List Char → List Char → Bool
  | [], _ => true
  | _ :: _, [] => false
  | a :: as, b :: bs => a = b && matchesFront as bs

/-- Does `needle` occur anywhere inside `hay`? (JS `String.includes`.) -/
def containsSeq (needle : List Char) : List Char → Bool
  | [] => matchesFront needle []
  | b :: bs => matchesFront needle (b :: bs) || containsSeq needle bs

/-- JS `s.includes(sub)` for a non-empty `sub`. -/
def strIncludes (s sub : String) : Bool :=
  containsSeq sub.data s.data

/-- JS `s.startsWith(p)`. -/
def strStartsWith (s p : String) : Bool :=
  matchesFront p.data s.data

/-- Split at the first occurrence of `sep`: the part before it and, when
`sep` occurs, the part after it. -/
def splitFirst (sep : Char) : List Char → List Char × Option (List Char)
  | [] => ([], none)
  | c :: cs =>
    if c = sep then ([], some cs)
    else
      let p := splitFirst sep cs
      (c :: p.1, p.2)

/-- Split on every occurrence of `sep`. -/
def splitAll (sep : Char) : List Char → List (List Char)
  | [] => [[]]
  | c :: cs =>
    if c = sep then [] :: splitAll sep cs
    else
      match splitAll sep cs with
      | [] => [[c]]
      | p :: ps => (c :: p) :: ps

/-- Lexicographic comparison of character lists (by code point). -/
def lexLe : List Char → List Char → Bool
  | [], _ => true
  | _ :: _, [] => false
  | a :: as, b :: bs => if a = b then lexLe as bs else decide (a.toNat < b.toNat)

/-- Join character lists with `&` between them. -/
def joinAmp : List (List Char) → List Char
  | [] => []
  | [p] => p
  | p :: q :: ps => p ++ '&' :: joinAmp (q :: ps)

/-- Join character lists with `/` between them. -/
def joinSlash : List (List Char) → List Char
  | [] => []
  | [p] => p
  | p :: q :: ps => p ++ '/' :: joinSlash (q :: ps)

/-! ## Key Deriver (spec section 4.1) -/

/-- Modelled from the spec: the fixed set of volatility-prone query
parameter names stripped by `Normalize` (cache-busting timestamps; the
spec's section 8 names `ts` as a stripped parameter). -/
def strippedParams : List (List Char) :=
  ["ts".data, "timestamp".data, "_".data, "nocache".data]

/-- The name part of a `name=value` query parameter. -/
def paramName (p : List Char) : List Char :=
  (splitFirst '=' p).1

/-- Ordering of query parameters: lexicographically by parameter name. -/
def paramLe (a b : List Char) : Prop :=
  lexLe (paramName a) (paramName b) = true

instance : DecidableRel paramLe :=
  fun a b => inferInstanceAs (Decidable (lexLe (paramName a) (paramName b) = true))

/-- Modelled from the spec: `Normalize(url)` parses the URL into path and
query, strips the volatility-prone parameter names, sorts the remaining
parameters lexicographically by name, and reassembles path + sorted query
string; a URL with no query part is returned unchanged. -/
def normalizeUrl (url : String) : String :=
  match splitFirst '?' url.data with
  | (_, none) => url
  | (path, some q) =>
    let params := (splitAll '&' q).filter (fun p => !p.isEmpty)
    let kept := params.filter (fun p => !(strippedParams.contains (paramName p)))
    let sorted := List.insertionSort paramLe kept
    if sorted.isEmpty then String.mk path
    else String.mk (path ++ '?' :: joinAmp sorted)

/-- Modelled from the spec: the request body is part of the cache identity
only for the mutating method (`POST`); for other methods it is omitted. -/
def bodyFingerprint (method : String) (body : Option String) : Option String :=
  if method = "POST" then body else none

/-- Modelled from the spec: `DeriveKey` builds the composite string
`method:normalizedUrl[:body]`. The spec applies a deterministic digest
purely for key compression; the model keeps the composite itself as the
key (a deterministic, collision-free stand-in for the hash). -/
def deriveKey (method normalized : String) (fp : Option String) : String :=
  method ++ ":" ++ normalized ++ (match fp with | some b => ":" ++ b | none => "")

/-- A path segment sanitized to filesystem-safe characters. -/
def sanitizeSegment (seg : List Char) : List Char :=
  seg.map (fun c => if c.isAlphanum then c else '_')

/-- Modelled from the spec: `DeriveLocation` uses all but the last path
segment as a directory chain, shards by the first two characters of the
key, and names the file `<sanitized-stem>_<key>.json`. -/
def deriveLocation (normalized key : String) : String :=
  let path := (splitFirst '?' normalized.data).1
  let segs := (splitAll '/' path).filter (fun s => !s.isEmpty)
  let dirs := segs.dropLast
  let stem := sanitizeSegment (segs.getLastD "root".data)
  String.mk (joinSlash dirs ++ '/' :: key.data.take 2 ++ '/' :: stem ++ '_' :: key.data) ++ ".json"

/-! ## Data model (spec section 3) -/

/-- Modelled from the spec: one row of the Metadata Index (one cache
entry). `sizeBytes` is the length of the stored payload (payloads are
modelled as strings; for the ASCII payloads of the API this is the byte
length). -/
structure IndexRow where
  rawUrl : String
  normalizedUrl : String
  method : String
  bodyFingerprint : Option String
  location : String
  sizeBytes : Nat
  createdAt : Nat
  accessedAt : Nat
  accessCount : Nat
deriving DecidableEq, Repr

/-- The identity tuple of a row: (normalizedUrl, method, bodyFingerprint). -/
def idOf (r : IndexRow) : String × String × Option String :=
  (r.normalizedUrl, r.method, r.bodyFingerprint)

/-- Does row `r` carry identity `(n, m, fp)`? -/
def matchesId (r : IndexRow) (n m : String) (fp : Option String) : Bool :=
  decide (r.normalizedUrl = n ∧ r.method = m ∧ r.bodyFingerprint = fp)

/-- The Metadata Index invariant: at most one live row per identity. -/
def uniqueIds (rows : List IndexRow) : Prop :=
  rows.Pairwise (fun a b => idOf a ≠ idOf b)

/-- Modelled from the spec: the cache substrate is a Metadata Index (rows)
plus a Blob Store (serialized payloads keyed by sharded filesystem
location). -/
structure CacheState where
  index : List IndexRow
  blobs : List (String × String)
deriving DecidableEq, Repr

/-- The empty cache. -/
def emptyCache : CacheState := { index := [], blobs := [] }

/-! ## Blob Store (spec section 4.2) -/

/-- Modelled from the spec: `Write(location, payload)` serializes the entry
to the target path, replacing any previous content at that path. -/
def blobWrite (bs : List (String × String)) (loc v : String) : List (String × String) :=
  (loc, v) :: bs.filter (fun p => !(p.1 == loc))

/-- Modelled from the spec: `Read(location)` returns the stored entry or a
not-found signal. -/
def blobRead (bs : List (String × String)) (loc : String) : Option String :=
  (bs.find? (fun p => p.1 == loc)).map (fun p => p.2)

/-- Modelled from the spec: `Delete(location)` removes the file if present
and tolerates already-missing files. -/
def blobDelete (bs : List (String × String)) (loc : String) : List (String × String) :=
  bs.filter (fun p => !(p.1 == loc))

/-! ## Metadata Index operations (spec section 4.3) -/

/-- Modelled from the spec: `Upsert(entry)` inserts a new row (accessCount
starts at 1), or — if the identity tuple already exists — replaces
size/location/timestamps in place while incrementing accessCount by one
relative to its prior value (`createdAt` is kept: the entry was created by
its first Save). -/
def upsert : List IndexRow → IndexRow → List IndexRow
  | [], e => [e]
  | r :: rs, e =>
    if matchesId r e.normalizedUrl e.method e.bodyFingerprint then
      { e with accessCount := r.accessCount + 1, createdAt := r.createdAt } :: rs
    else r :: upsert rs e

/-- Modelled from the spec: the separate step after a `Lookup` hit that
bumps `accessedAt` and `accessCount` of the matching row. -/
def bumpAccess (rows : List IndexRow) (n m : String) (fp : Option String) (now : Nat) :
    List IndexRow :=
  rows.map fun r =>
    if matchesId r n m fp then { r with accessedAt := now, accessCount := r.accessCount + 1 }
    else r

/-- The number of live rows with identity `(n, m, fp)`. -/
def countId (rows : List IndexRow) (n m : String) (fp : Option String) : Nat :=
  (rows.filter (fun r => matchesId r n m fp)).length

/-- The access count of the live row with identity `(n, m, fp)` (0 when the
identity is absent). -/
def accessCountOf (rows : List IndexRow) (n m : String) (fp : Option String) : Nat :=
  match rows.find? (fun r => matchesId r n m fp) with
  | some r => r.accessCount
  | none => 0

/-! ## Cache Gateway: load / save / exists / revalidate / clearAll
(spec section 4.5) -/

/-- The sharded location a Save derives for a request identity. -/
def saveLocation (url method : String) (body : Option String) : String :=
  deriveLocation (normalizeUrl url)
    (deriveKey method (normalizeUrl url) (bodyFingerprint method body))

/-- The fresh index row a Save builds: identity from the Key Deriver,
location from the sharder, accessCount starting at 1. -/
def mkSaveEntry (url payload method : String) (body : Option String) (now : Nat) : IndexRow :=
  { rawUrl := url, normalizedUrl := normalizeUrl url, method := method,
    bodyFingerprint := bodyFingerprint method body,
    location := saveLocation url method body, sizeBytes := payload.length,
    createdAt := now, accessedAt := now, accessCount := 1 }

/-- Modelled from the spec: `Save(url, payload, method, body)` derives the
identity and location, writes the blob, upserts the index row, and returns
a success flag. `writeOk` injects the outcome of the underlying blob write
(disk full / permission denied make it false): on a write failure nothing
is stored and the flag is false (spec sections 7 and 9: the blob is written
before the index row is touched). -/
def save (s : CacheState) (url payload method : String) (body : Option String)
    (now : Nat) (writeOk : Bool) : Bool × CacheState :=
  match writeOk with
  | false => (false, s)
  | true =>
    let e := mkSaveEntry url payload method body now
    (true, { index := upsert s.index e,
             blobs := blobWrite s.blobs (saveLocation url method body) payload })

/-- Modelled from the spec: `Load(url, method, body)` queries the Metadata
Index first; on an index hit the Blob Store is read at the row's location;
a missing blob is treated as a miss; on a hit the access statistics are
bumped. -/
def load (s : CacheState) (url method : String) (body : Option String) (now : Nat) :
    Option String × CacheState :=
  let n := normalizeUrl url
  let fp := bodyFingerprint method body
  match s.index.find? (fun r => matchesId r n method fp) with
  | none => (none, s)
  | some r =>
    match blobRead s.blobs r.location with
    | none => (none, s)
    | some payload => (some payload, { s with index := bumpAccess s.index n method fp now })

/-- Modelled from the spec: `Exists(url, method, body)` is an exact-match
query on the identity tuple. -/
def existsEntry (s : CacheState) (url method : String) (body : Option String) : Bool :=
  (s.index.find? (fun r =>
    matchesId r (normalizeUrl url) method (bodyFingerprint method body))).isSome

/-- Modelled from the spec: `Revalidate(pathPrefix)` deletes every index
row whose `normalizedUrl` starts with the prefix, deletes the rows' blobs,
and returns the number of deleted entries. -/
def revalidatePath (s : CacheState) (pathPre : String) : Nat × CacheState :=
  let removed := s.index.filter (fun r => strStartsWith r.normalizedUrl pathPre)
  let kept := s.index.filter (fun r => !(strStartsWith r.normalizedUrl pathPre))
  (removed.length,
   { index := kept,
     blobs := removed.foldl (fun bs r => blobDelete bs r.location) s.blobs })

/-- Modelled from the spec: `ClearAll()` destroys every entry. -/
def clearAll : Bool × CacheState := (true, emptyCache)

/-! ## Eviction/Cleanup Engine (spec section 4.4) -/

/-- Milliseconds per day, for the max-age criterion. -/
def msPerDay : Nat := 86400000

/-- The total stored size of a set of index rows. -/
def totalSize (rows : List IndexRow) : Nat :=
  (rows.map IndexRow.sizeBytes).sum

/-- Modelled from the spec: the max-age criterion keeps a row whose
`accessedAt` is not older than `now` minus the configured number of days. -/
def ageKeep (now : Nat) (maxAgeDays : Option Nat) (r : IndexRow) : Bool :=
  match maxAgeDays with
  | none => true
  | some d => decide (now - d * msPerDay ≤ r.accessedAt)

/-- Modelled from the spec: the min-access-count criterion keeps a row
whose `accessCount` is at least the threshold. -/
def accessKeep (minAccessCount : Option Nat) (r : IndexRow) : Bool :=
  match minAccessCount with
  | none => true
  | some k => decide (k ≤ r.accessCount)

/-- Modelled from the spec: the eviction order of the max-total-size
criterion — `(accessedAt ascending, accessCount ascending)`, least-recently
and least-frequently used first. -/
def policyR (a b : IndexRow) : Prop :=
  a.accessedAt < b.accessedAt ∨ (a.accessedAt = b.accessedAt ∧ a.accessCount ≤ b.accessCount)

instance : DecidableRel policyR :=
  fun a b =>
    inferInstanceAs (Decidable (a.accessedAt < b.accessedAt ∨
      (a.accessedAt = b.accessedAt ∧ a.accessCount ≤ b.accessCount)))

instance : IsTotal IndexRow policyR :=
  ⟨by intro a b; unfold policyR; omega⟩

instance : IsTrans IndexRow policyR :=
  ⟨by intro a b c hab hbc; unfold policyR at *; omega⟩

/-- The candidate rows in eviction order. -/
def sortPolicy (rows : List IndexRow) : List IndexRow :=
  List.insertionSort policyR rows

/-- Modelled from the spec: walk the rows in eviction order and delete from
the front until the total of the remaining rows is at or below the budget;
returns (deleted, kept). -/
def evictWhile (budget : Nat) : List IndexRow → List IndexRow × List IndexRow
  | [] => ([], [])
  | r :: rs =>
    if totalSize (r :: rs) ≤ budget then ([], r :: rs)
    else
      let p := evictWhile budget rs
      (r :: p.1, p.2)

/-- Modelled from the spec: the max-total-size pass — when a budget is
configured and the remaining rows exceed it, delete rows in eviction order
until the total is at or below the budget. -/
def sizePass (maxTotalSizeBytes : Option Nat) (rows : List IndexRow) :
    List IndexRow × List IndexRow :=
  match maxTotalSizeBytes with
  | none => ([], rows)
  | some budget => evictWhile budget (sortPolicy rows)

/-- Modelled from the spec: the result of a `Cleanup` call. -/
structure CleanupResult where
  deletedCount : Nat
  deletedBytes : Nat
  state : CacheState
deriving DecidableEq, Repr

/-- Modelled from the spec: `Cleanup(options)` applies the max-age,
min-access-count and max-total-size criteria in sequence in one
invocation (the first two passes reduce the candidate set before the size
pass computes totals); every deletion removes both the index row and the
blob, and the call reports the number of entries removed and bytes freed. -/
def cleanup (s : CacheState) (maxAgeDays minAccessCount maxTotalSizeBytes : Option Nat)
    (now : Nat) : CleanupResult :=
  let removedAge := s.index.filter (fun r => !(ageKeep now maxAgeDays r))
  let afterAge := s.index.filter (ageKeep now maxAgeDays)
  let removedAccess := afterAge.filter (fun r => !(accessKeep minAccessCount r))
  let afterAccess := afterAge.filter (accessKeep minAccessCount)
  let sp := sizePass maxTotalSizeBytes afterAccess
  let removed := removedAge ++ removedAccess ++ sp.1
  { deletedCount := removed.length,
    deletedBytes := (removed.map IndexRow.sizeBytes).sum,
    state := { index := sp.2,
               blobs := removed.foldl (fun bs r => blobDelete bs r.location) s.blobs } }

/-! ## Gateway operation sequences -/

/-- One public Cache Gateway operation (spec section 4.5); `save` carries
the outcome of its underlying blob write. -/
inductive GatewayOp where
  | saveOp (url payload method : String) (body : Option String) (now : Nat) (writeOk : Bool)
  | loadOp (url method : String) (body : Option String) (now : Nat)
  | revalidateOp (pathPre : String)
  | cleanupOp (maxAgeDays minAccessCount maxTotalSizeBytes : Option Nat) (now : Nat)
  | clearAllOp
deriving DecidableEq, Repr

/-- The state after one Gateway operation. -/
def applyOp (s : CacheState) : GatewayOp → CacheState
  | .saveOp u p m b t w => (save s u p m b t w).2
  | .loadOp u m b t => (load s u m b t).2
  | .revalidateOp pre => (revalidatePath s pre).2
  | .cleanupOp a k tot t => (cleanup s a k tot t).state
  | .clearAllOp => clearAll.2

/-- The state after a sequence of Gateway operations from the empty cache. -/
def runOps (ops : List GatewayOp) : CacheState :=
  ops.foldl applyOp emptyCache

/-! ## The caller layer, embedded from the source

`src/middleware/cache.js` (`cacheMiddleware`, `isApiRequest`, the startup
IIFE) and the proxy dispatch of `src/server.js`. -/

/-- An inbound HTTP request as `cacheMiddleware` sees it: method,
`req.originalUrl`, parsed JSON body, the two headers `isApiRequest` reads,
and the authenticated user set by the JWT middleware. -/
structure Request where
  method : String
  originalUrl : String
  body : Option String
  contentType : Option String
  accept : Option String
  user : Option String
deriving DecidableEq, Repr

/-- JS optional chaining `header?.includes(sub)` coerced to a boolean:
false when the header is absent. -/
def optIncludes (h : Option String) (sub : String) : Bool :=
  match h with
  | none => false
  | some s => strIncludes s sub

/-- From `src/middleware/cache.js` (`isApiRequest`): a request is an API
request when its content-type or accept header includes
`application/json`, or its URL includes `/api/` or `/alldata/`. -/
def isApiRequest (req : Request) : Bool :=
  optIncludes req.contentType "application/json" ||
  optIncludes req.accept "application/json" ||
  strIncludes req.originalUrl "/api/" ||
  strIncludes req.originalUrl "/alldata/"

/-- The guard of `cacheMiddleware`: only GET/POST API requests are
cacheable; anything else is passed through untouched. -/
def cacheable (req : Request) : Bool :=
  (req.method == "GET" || req.method == "POST") && isApiRequest req

/-- What `cacheManager.load(req.originalUrl, req.method, req.body)`
resolved to: a value / a miss (`.ok none`), or a rejection. -/
inductive CacheLoadResult where
  | ok (v : Option String)
  | error (msg : String)
deriving DecidableEq, Repr

/-- The observable outcome of `cacheMiddleware` on one request. -/
inductive MiddlewareOutcome where
  /-- `next()` was called without any cache lookup and without attaching
  `res.saveToCache`: the cache is never read or written for this request. -/
  | passNoHook
  /-- The cached payload was sent (`X-Cache: HIT`); `next()` not called. -/
  | hit (payload : String)
  /-- `next()` was called with `res.saveToCache` attached. -/
  | passWithHook
deriving DecidableEq, Repr

/-- From `src/middleware/cache.js` (`cacheMiddleware`): skip non-GET/POST
and non-API requests entirely; otherwise try the cache — a resolved value
is served as a hit, while a miss or a thrown error (caught and logged)
falls through to `next()` with the save hook attached. -/
def cacheMiddleware (req : Request) (loadResult : CacheLoadResult) : MiddlewareOutcome :=
  if !cacheable req then .passNoHook
  else
    match loadResult with
    | .ok (some v) => .hit v
    | .ok none => .passWithHook
    | .error _ => .passWithHook

/-- The arguments `cacheMiddleware` passes to `cacheManager.load` and
`cacheManager.save` — `(req.originalUrl, req.method, req.body)` and nothing
else (in particular not `req.user`). -/
def cacheArgsOf (req : Request) : String × String × Option String :=
  (req.originalUrl, req.method, req.body)

/-- The cache identity the Gateway derives from those arguments. -/
def identityOf (req : Request) : String × String × Option String :=
  (normalizeUrl req.originalUrl, req.method, bodyFingerprint req.method req.body)

/-- The state of the service after the startup IIFE of
`src/middleware/cache.js` ran. -/
inductive StartupOutcome where
  /-- The process keeps running; `dbReady` records whether
  `initializeDatabase` succeeded. -/
  | running (dbReady : Bool)
  /-- The process exited. -/
  | exited
deriving DecidableEq, Repr

/-- From `src/middleware/cache.js` (the startup IIFE): the result of
`cacheManager.initializeDatabase()` is awaited inside try/catch; a success
is logged and a failure is logged via `console.error` — in both cases the
process keeps running (no `process.exit` and no rethrow). -/
def startupInit (initResult : Except String Unit) : StartupOutcome :=
  match initResult with
  | .ok _ => .running true
  | .error _ => .running false

/-- How `cacheManager.save` resolved inside `res.saveToCache`: the success
flag it returned, or the message it threw with. -/
inductive SaveOutcome where
  | returned (flag : Bool)
  | threw (msg : String)
deriving DecidableEq, Repr

/-- The response the proxy sends to the client: status, JSON body, and the
`X-Cache` header if one was set. -/
structure SentResponse where
  status : Nat
  body : String
  xCacheHeader : Option String
deriving DecidableEq, Repr

/-- From `src/middleware/cache.js` (`res.saveToCache`): await the save
inside try/catch; after a resolved save set `X-Cache: MISS`, after a thrown
save just log the error — never rethrow. -/
def runSaveHook (outcome : SaveOutcome) (resp : SentResponse) : SentResponse :=
  match outcome with
  | .returned _ => { resp with xCacheHeader := some "MISS" }
  | .threw _ => resp

/-- From `src/server.js` (`proxyRequest`, the API branch): the client
response after `await res.saveToCache(response.data); res.json(response.data)`
— status and body come from the upstream response no matter how the save
went. -/
def apiCacheBranch (payload : String) (outcome : SaveOutcome) : SentResponse :=
  runSaveHook outcome { status := 200, body := payload, xCacheHeader := none }

/-- Which branch of `proxyRequest`'s response handling runs
(`src/server.js`). -/
inductive ProxyAction where
  /-- Font file at status 200: streamed to disk and client, no cache save. -/
  | fontSave
  /-- API request at status 200 with the hook attached:
  `res.saveToCache(response.data)` then `res.json(response.data)`. -/
  | cacheSaveAndJson
  /-- Everything else: piped or sent as JSON, the cache is never written. -/
  | passThrough
deriving DecidableEq, Repr

/-- From `src/server.js` (`proxyRequest`): the branch taken on the upstream
response — fonts first, then the cache-save branch guarded by
`isApiRequest && response.status === 200 && res.saveToCache`. -/
def proxyDispatch (isFont isApi : Bool) (status : Nat) (hasHook : Bool) : ProxyAction :=
  if isFont && decide (status = 200) then .fontSave
  else if isApi && decide (status = 200) && hasHook then .cacheSaveAndJson
  else .passThrough

/-! ## Helper lemmas -/

theorem matchesId_iff {r : IndexRow} {n m : String} {fp : Option String} :
    matchesId r n m fp = true ↔
      r.normalizedUrl = n ∧ r.method = m ∧ r.bodyFingerprint = fp := by
  simp [matchesId]

/-- After an upsert, the upserted identity is found with the new entry's
payload-bearing fields (only `accessCount` and `createdAt` depend on the
prior row). -/
theorem upsert_find? (rows : List IndexRow) (e : IndexRow) (n m : String)
    (fp : Option String) (hn : e.normalizedUrl = n) (hm : e.method = m)
    (hf : e.bodyFingerprint = fp) :
    ∃ c t, (upsert rows e).find? (fun r => matchesId r n m fp)
      = some { e with accessCount := c, createdAt := t } := by
  subst hn hm hf
  induction rows with
  | nil =>
    refine ⟨e.accessCount, e.createdAt, ?_⟩
    exact List.find?_cons_of_pos _ (matchesId_iff.mpr ⟨rfl, rfl, rfl⟩)
  | cons r rs ih =>
    rcases h : matchesId r e.normalizedUrl e.method e.bodyFingerprint with _ | _
    · obtain ⟨c, t, hc⟩ := ih
      refine ⟨c, t, ?_⟩
      rw [show upsert (r :: rs) e = r :: upsert rs e by simp [upsert, h]]
      rw [List.find?_cons_of_neg _ (by simp [h])]
      exact hc
    · refine ⟨r.accessCount + 1, r.createdAt, ?_⟩
      rw [show upsert (r :: rs) e
            = { e with accessCount := r.accessCount + 1, createdAt := r.createdAt } :: rs
            by simp [upsert, h]]
      exact List.find?_cons_of_pos _ (matchesId_iff.mpr ⟨rfl, rfl, rfl⟩)

/-- Reading back a location just written returns what was written. -/
theorem blobRead_write_self (bs : List (String × String)) (loc v : String) :
    blobRead (blobWrite bs loc v) loc = some v := by
  simp [blobRead, blobWrite, List.find?]

theorem matchesId_id {r : IndexRow} {n m : String} {fp : Option String} :
    matchesId r n m fp = true ↔ idOf r = (n, m, fp) := by
  simp [matchesId, idOf, Prod.ext_iff]

theorem idOf_ne_of_not_matches {r e : IndexRow}
    (hm : matchesId r e.normalizedUrl e.method e.bodyFingerprint = false) :
    idOf r ≠ idOf e := by
  intro hre
  rw [matchesId_id.mpr hre] at hm
  exact Bool.true_eq_false.mp hm

/-- Every row of an upsert result is either an untouched old row or carries
the upserted identity. -/
theorem mem_upsert {rows : List IndexRow} {e x : IndexRow}
    (hx : x ∈ upsert rows e) : x ∈ rows ∨ idOf x = idOf e := by
  induction rows with
  | nil =>
    simp only [upsert, List.mem_singleton] at hx
    subst hx
    exact Or.inr rfl
  | cons r rs ih =>
    rcases h : matchesId r e.normalizedUrl e.method e.bodyFingerprint with _ | _
    · rw [show upsert (r :: rs) e = r :: upsert rs e by simp [upsert, h]] at hx
      rcases List.mem_cons.mp hx with h1 | h2
      · exact Or.inl (by simp [h1])
      · rcases ih h2 with h3 | h4
        · exact Or.inl (List.mem_cons_of_mem _ h3)
        · exact Or.inr h4
    · rw [show upsert (r :: rs) e
          = { e with accessCount := r.accessCount + 1, createdAt := r.createdAt } :: rs
          by simp [upsert, h]] at hx
      rcases List.mem_cons.mp hx with h1 | h2
      · subst h1; exact Or.inr rfl
      · exact Or.inl (List.mem_cons_of_mem _ h2)

/-- Upsert preserves the Metadata Index uniqueness invariant. -/
theorem upsert_uniqueIds {rows : List IndexRow} {e : IndexRow} (h : uniqueIds rows) :
    uniqueIds (upsert rows e) := by
  induction rows with
  | nil => simp [upsert, uniqueIds]
  | cons r rs ih =>
    rw [uniqueIds, List.pairwise_cons] at h
    obtain ⟨hr, hrs⟩ := h
    rcases hm : matchesId r e.normalizedUrl e.method e.bodyFingerprint with _ | _
    · rw [show upsert (r :: rs) e = r :: upsert rs e by simp [upsert, hm]]
      rw [uniqueIds, List.pairwise_cons]
      refine ⟨?_, ih hrs⟩
      intro x hx
      rcases mem_upsert hx with h1 | h2
      · exact hr x h1
      · rw [h2]
        exact idOf_ne_of_not_matches hm
    · rw [show upsert (r :: rs) e
          = { e with accessCount := r.accessCount + 1, createdAt := r.createdAt } :: rs
          by simp [upsert, hm]]
      rw [uniqueIds, List.pairwise_cons]
      refine ⟨?_, hrs⟩
      intro x hx
      have hre : idOf r = idOf e := matchesId_id.mp hm
      have : idOf ({ e with accessCount := r.accessCount + 1, createdAt := r.createdAt })
          = idOf r := hre.symm
      rw [this]
      exact hr x hx

/-- In an index satisfying the uniqueness invariant, an upsert leaves
exactly one live row for the upserted identity. -/
theorem upsert_countId {rows : List IndexRow} {e : IndexRow} {n m : String}
    {fp : Option String} (h : uniqueIds rows) (hn : e.normalizedUrl = n)
    (hm : e.method = m) (hf : e.bodyFingerprint = fp) :
    countId (upsert rows e) n m fp = 1 := by
  subst hn hm hf
  induction rows with
  | nil =>
    simp [upsert, countId, List.filter, matchesId_iff.mpr ⟨rfl, rfl, rfl⟩]
  | cons r rs ih =>
    rw [uniqueIds, List.pairwise_cons] at h
    obtain ⟨hr, hrs⟩ := h
    rcases hmm : matchesId r e.normalizedUrl e.method e.bodyFingerprint with _ | _
    · rw [show upsert (r :: rs) e = r :: upsert rs e by simp [upsert, hmm]]
      have hskip : List.filter
            (fun x => matchesId x e.normalizedUrl e.method e.bodyFingerprint)
            (r :: upsert rs e)
          = List.filter (fun x => matchesId x e.normalizedUrl e.method e.bodyFingerprint)
            (upsert rs e) :=
        List.filter_cons_of_neg (by simp [hmm])
      rw [countId, hskip]
      exact ih hrs
    · rw [show upsert (r :: rs) e
          = { e with accessCount := r.accessCount + 1, createdAt := r.createdAt } :: rs
          by simp [upsert, hmm]]
      have hre : idOf r = idOf e := matchesId_id.mp hmm
      have hnone : rs.filter
          (fun x => matchesId x e.normalizedUrl e.method e.bodyFingerprint) = [] := by
        refine List.filter_eq_nil_iff.mpr ?_
        intro x hx hxm
        exact hr x hx (hre.trans (matchesId_id.mp hxm).symm)
      have hhead : List.filter
            (fun x => matchesId x e.normalizedUrl e.method e.bodyFingerprint)
            ({ e with accessCount := r.accessCount + 1, createdAt := r.createdAt } :: rs)
          = { e with accessCount := r.accessCount + 1, createdAt := r.createdAt }
            :: rs.filter (fun x => matchesId x e.normalizedUrl e.method e.bodyFingerprint) :=
        List.filter_cons_of_pos (matchesId_iff.mpr ⟨rfl, rfl, rfl⟩)
      rw [countId, hhead, hnone]
      rfl

/-- Upserting an identity whose row is live replaces that row in place,
its access count one more than before. -/
theorem upsert_find?_increment {rows : List IndexRow} {e r0 : IndexRow} {n m : String}
    {fp : Option String} (h : rows.find? (fun r => matchesId r n m fp) = some r0)
    (hn : e.normalizedUrl = n) (hm : e.method = m) (hf : e.bodyFingerprint = fp) :
    (upsert rows e).find? (fun r => matchesId r n m fp)
      = some { e with accessCount := r0.accessCount + 1, createdAt := r0.createdAt } := by
  subst hn hm hf
  induction rows with
  | nil => simp at h
  | cons r rs ih =>
    rcases hmm : matchesId r e.normalizedUrl e.method e.bodyFingerprint with _ | _
    · have hskip : List.find?
            (fun x => matchesId x e.normalizedUrl e.method e.bodyFingerprint) (r :: rs)
          = List.find? (fun x => matchesId x e.normalizedUrl e.method e.bodyFingerprint) rs :=
        List.find?_cons_of_neg _ (by simp [hmm])
      rw [hskip] at h
      rw [show upsert (r :: rs) e = r :: upsert rs e by simp [upsert, hmm]]
      rw [List.find?_cons_of_neg _ (by simp [hmm])]
      exact ih h
    · have hhead : List.find?
            (fun x => matchesId x e.normalizedUrl e.method e.bodyFingerprint) (r :: rs)
          = some r :=
        List.find?_cons_of_pos _ hmm
      rw [hhead] at h
      injection h with h
      subst h
      rw [show upsert (r :: rs) e
          = { e with accessCount := r.accessCount + 1, createdAt := r.createdAt } :: rs
          by simp [upsert, hmm]]
      exact List.find?_cons_of_pos _ (matchesId_iff.mpr ⟨rfl, rfl, rfl⟩)

/-- The access bump of a Load hit does not change any row's identity. -/
theorem idOf_bump (r : IndexRow) (n m : String) (fp : Option String) (now : Nat) :
    idOf (if matchesId r n m fp then
      { r with accessedAt := now, accessCount := r.accessCount + 1 } else r) = idOf r := by
  split <;> rfl

theorem bumpAccess_uniqueIds {rows : List IndexRow} (n m : String) (fp : Option String)
    (now : Nat) (h : uniqueIds rows) : uniqueIds (bumpAccess rows n m fp now) := by
  unfold bumpAccess uniqueIds
  refine List.Pairwise.map _ ?_ h
  intro a b hab
  simpa [idOf_bump] using hab

theorem load_uniqueIds {s : CacheState} (u m : String) (b : Option String) (t : Nat)
    (h : uniqueIds s.index) : uniqueIds (load s u m b t).2.index := by
  unfold load
  rcases hf : s.index.find? (fun r =>
      matchesId r (normalizeUrl u) m (bodyFingerprint m b)) with _ | r
  · simpa [hf] using h
  · rcases hb : blobRead s.blobs r.location with _ | v
    · simpa [hf, hb] using h
    · simpa [hf, hb] using bumpAccess_uniqueIds _ _ _ _ h

theorem save_uniqueIds {s : CacheState} (u p m : String) (b : Option String) (t : Nat)
    (w : Bool) (h : uniqueIds s.index) : uniqueIds (save s u p m b t w).2.index := by
  cases w
  · simpa [save] using h
  · simpa [save] using upsert_uniqueIds h

theorem revalidate_uniqueIds {s : CacheState} (pre : String) (h : uniqueIds s.index) :
    uniqueIds (revalidatePath s pre).2.index := by
  simpa [revalidatePath] using h.filter _

/-- The size pass splits its input: deleted rows followed by kept rows. -/
theorem evictWhile_append (budget : Nat) (l : List IndexRow) :
    (evictWhile budget l).1 ++ (evictWhile budget l).2 = l := by
  induction l with
  | nil => rfl
  | cons r rs ih =>
    by_cases h : totalSize (r :: rs) ≤ budget
    · simp [evictWhile, h]
    · simp [evictWhile, h, ih]

/-- The rows surviving the size pass total at or below the budget. -/
theorem evictWhile_kept_le (budget : Nat) (l : List IndexRow) :
    totalSize (evictWhile budget l).2 ≤ budget := by
  induction l with
  | nil => simp [evictWhile, totalSize]
  | cons r rs ih =>
    by_cases h : totalSize (r :: rs) ≤ budget
    · simp only [evictWhile, if_pos h]
      exact h
    · simpa [evictWhile, h] using ih

/-- The size pass deletes no more than needed: before each deleted row was
deleted, the remaining rows still exceeded the budget. -/
theorem evictWhile_minimal (budget : Nat) (l : List IndexRow) :
    ∀ k, k < (evictWhile budget l).1.length → budget < totalSize (l.drop k) := by
  induction l with
  | nil => intro k hk; simp [evictWhile] at hk
  | cons r rs ih =>
    intro k hk
    by_cases h : totalSize (r :: rs) ≤ budget
    · simp [evictWhile, h] at hk
    · rcases k with _ | k
      · simpa using Nat.lt_of_not_le h
      · have hk2 : k < (evictWhile budget rs).1.length := by
          simpa [evictWhile, h] using hk
        simpa using ih k hk2

theorem evictWhile_kept_sublist (budget : Nat) (l : List IndexRow) :
    List.Sublist (evictWhile budget l).2 l := by
  conv_rhs => rw [← evictWhile_append budget l]
  exact List.sublist_append_right _ _

theorem cleanup_uniqueIds {s : CacheState} (a k tot : Option Nat) (t : Nat)
    (h : uniqueIds s.index) : uniqueIds (cleanup s a k tot t).state.index := by
  have h2 : uniqueIds ((s.index.filter (ageKeep t a)).filter (accessKeep k)) :=
    (h.filter _).filter _
  rcases tot with _ | budget
  · simpa [cleanup, sizePass] using h2
  · have hperm : List.Perm
        (sortPolicy ((s.index.filter (ageKeep t a)).filter (accessKeep k)))
        ((s.index.filter (ageKeep t a)).filter (accessKeep k)) :=
      List.perm_insertionSort _ _
    have hsorted : uniqueIds
        (sortPolicy ((s.index.filter (ageKeep t a)).filter (accessKeep k))) :=
      (hperm.pairwise_iff (fun hxy => Ne.symm hxy)).mpr h2
    simpa [cleanup, sizePass] using
      List.Pairwise.sublist (evictWhile_kept_sublist _ _) hsorted

theorem applyOp_uniqueIds {s : CacheState} (op : GatewayOp) (h : uniqueIds s.index) :
    uniqueIds (applyOp s op).index := by
  cases op with
  | saveOp u p m b t w => exact save_uniqueIds u p m b t w h
  | loadOp u m b t => exact load_uniqueIds u m b t h
  | revalidateOp pre => exact revalidate_uniqueIds pre h
  | cleanupOp a k tot t => exact cleanup_uniqueIds a k tot t h
  | clearAllOp => simp [applyOp, clearAll, emptyCache, uniqueIds]

/-- Every state reachable by Gateway operations satisfies the uniqueness
invariant. -/
theorem runOps_uniqueIds (ops : List GatewayOp) : uniqueIds (runOps ops).index := by
  suffices h : ∀ s, uniqueIds s.index → uniqueIds (ops.foldl applyOp s).index by
    exact h emptyCache (by simp [emptyCache, uniqueIds])
  induction ops with
  | nil => intro s hs; exact hs
  | cons op rest ih => intro s hs; exact ih _ (applyOp_uniqueIds op hs)

/-- With only a size budget configured, cleanup reduces to the size pass
over the eviction-ordered index. -/
theorem cleanup_size_state (s : CacheState) (B now : Nat) :
    (cleanup s none none (some B) now).state.index
      = (evictWhile B (sortPolicy s.index)).2 := by
  have h1 : s.index.filter (ageKeep now none) = s.index :=
    List.filter_eq_self.mpr (fun a ha => rfl)
  have h2 : s.index.filter (accessKeep none) = s.index :=
    List.filter_eq_self.mpr (fun a ha => rfl)
  simp [cleanup, sizePass, h1, h2]

/-! ## C3: size-bound cleanup -/

/-- **C3.** For every cache state and size budget `B`,
`Cleanup({maxTotalSizeBytes: B})` leaves the total stored size of the
surviving index rows at most `B`; the deleted rows are exactly an initial
segment of the index rows ordered by `(accessedAt ascending, accessCount
ascending)` (the ordered list is sorted under `policyR` and is a
permutation of the index); and the least-used rows are deleted only while
the remaining total still exceeds the budget. -/
theorem cleanup_size_bound (s : CacheState) (B now : Nat) :
    totalSize (cleanup s none none (some B) now).state.index ≤ B ∧
    (evictWhile B (sortPolicy s.index)).1
        ++ (cleanup s none none (some B) now).state.index = sortPolicy s.index ∧
    List.Sorted policyR (sortPolicy s.index) ∧
    List.Perm (sortPolicy s.index) s.index ∧
    (∀ k, k < (evictWhile B (sortPolicy s.index)).1.length
      → B < totalSize ((sortPolicy s.index).drop k)) := by
  refine ⟨?_, ?_, ?_, ?_, ?_⟩
  · rw [cleanup_size_state]
    exact evictWhile_kept_le B _
  · rw [cleanup_size_state]
    exact evictWhile_append B _
  · exact List.sorted_insertionSort policyR _
  · exact List.perm_insertionSort policyR _
  · exact evictWhile_minimal B _

/-! ## C4: prefix revalidation scope -/

/-- A first index match survives a filter that every match passes. -/
theorem find?_filter_isSome {α : Type} {p q : α → Bool} {l : List α}
    (h : (l.find? p).isSome = true) (himp : ∀ x, p x = true → q x = true) :
    ((l.filter q).find? p).isSome = true := by
  induction l with
  | nil => simp at h
  | cons a as ih =>
    rcases hp : p a with _ | _
    · rw [List.find?_cons_of_neg _ (by simp [hp])] at h
      rcases hq : q a with _ | _
      · rw [List.filter_cons_of_neg (by simp [hq])]
        exact ih h
      · rw [List.filter_cons_of_pos hq, List.find?_cons_of_neg _ (by simp [hp])]
        exact ih h
    · rw [List.filter_cons_of_pos (himp a hp)]
      simp [List.find?_cons_of_pos _ hp]

/-- **C4.** `Revalidate(P)` deletes exactly the index rows whose
`normalizedUrl` starts with `P`: the surviving index is the original one
filtered to the non-matching rows (each kept verbatim); a row of the
original index is gone afterwards precisely when its `normalizedUrl`
starts with `P`; and every identity whose normalized URL does not start
with `P` still satisfies `Exists` afterwards. -/
theorem revalidate_scope (s : CacheState) (pre : String) :
    (revalidatePath s pre).2.index
        = s.index.filter (fun r => !(strStartsWith r.normalizedUrl pre)) ∧
    (∀ r, r ∈ s.index →
      (strStartsWith r.normalizedUrl pre = true ↔ r ∉ (revalidatePath s pre).2.index)) ∧
    (∀ url method body, existsEntry s url method body = true →
      strStartsWith (normalizeUrl url) pre = false →
      existsEntry (revalidatePath s pre).2 url method body = true) := by
  refine ⟨rfl, ?_, ?_⟩
  · intro r hr
    constructor
    · intro hpre hmem
      have hkeep := (List.mem_filter.mp hmem).2
      simp [hpre] at hkeep
    · intro hmem
      rcases hcase : strStartsWith r.normalizedUrl pre with _ | _
      · exact (hmem (List.mem_filter.mpr ⟨hr, by simp [hcase]⟩)).elim
      · rfl
  · intro url method body hex hpre
    have himp : ∀ x, matchesId x (normalizeUrl url) method (bodyFingerprint method body) = true
        → (!(strStartsWith x.normalizedUrl pre)) = true := by
      intro x hx
      have hn := (matchesId_iff.mp hx).1
      simp [hn, hpre]
    simp only [existsEntry] at hex ⊢
    exact find?_filter_isSome hex himp

/-! ## C2: identity uniqueness and upsert increment -/

/-- **C2.** After every sequence of Gateway operations the Metadata Index
never holds two live rows with the same (normalizedUrl, method,
bodyFingerprint) identity; and when a second Save is made to an identity
that already has a row (here: after a first Save of the same url, method
and body), exactly one live row exists for that identity afterwards and
its accessCount is strictly greater than after the first Save — the upsert
increments, never resets, the counter. -/
theorem index_identity_unique (ops : List GatewayOp) (url p1 p2 method : String)
    (body : Option String) (t1 t2 : Nat) :
    uniqueIds (runOps ops).index ∧
    countId (save (save (runOps ops) url p1 method body t1 true).2
        url p2 method body t2 true).2.index
      (normalizeUrl url) method (bodyFingerprint method body) = 1 ∧
    accessCountOf (save (runOps ops) url p1 method body t1 true).2.index
        (normalizeUrl url) method (bodyFingerprint method body)
      < accessCountOf (save (save (runOps ops) url p1 method body t1 true).2
          url p2 method body t2 true).2.index
        (normalizeUrl url) method (bodyFingerprint method body) := by
  have h0 : uniqueIds (runOps ops).index := runOps_uniqueIds ops
  refine ⟨h0, ?_, ?_⟩
  · simp only [save]
    exact upsert_countId (upsert_uniqueIds h0) rfl rfl rfl
  · simp only [save]
    obtain ⟨c, t, hf1⟩ := upsert_find? (runOps ops).index
      (mkSaveEntry url p1 method body t1)
      (normalizeUrl url) method (bodyFingerprint method body) rfl rfl rfl
    have hf2 := upsert_find?_increment (e := mkSaveEntry url p2 method body t2)
      hf1 rfl rfl rfl
    simp only [accessCountOf, hf1, hf2]
    exact Nat.lt_succ_self _

/-! ## C1: save/load round trip -/

/-- A Load whose index query finds a row whose blob is present returns
that blob's payload. -/
theorem load_of_find?_location {s : CacheState} {url method v : String}
    {body : Option String} {now : Nat} {r : IndexRow}
    (hf : s.index.find?
      (fun x => matchesId x (normalizeUrl url) method (bodyFingerprint method body)) = some r)
    (hb : blobRead s.blobs r.location = some v) :
    (load s url method body now).1 = some v := by
  simp only [load, hf, hb]

/-- **C1.** For every cache state, URL, method, body and payload, a
successful `Save` followed by `Load` of the same (url, method, body) — with
no intervening deletion — returns exactly the saved payload. -/
theorem save_load_round_trip (s : CacheState) (url payload method : String)
    (body : Option String) (tSave tLoad : Nat) :
    (load (save s url payload method body tSave true).2 url method body tLoad).1
      = some payload := by
  obtain ⟨c, t, hfind⟩ :=
    upsert_find? s.index (mkSaveEntry url payload method body tSave)
      (normalizeUrl url) method (bodyFingerprint method body) rfl rfl rfl
  simp only [save]
  exact load_of_find?_location hfind (blobRead_write_self _ _ _)

/-! ## C5: load failures degrade to a cache miss -/

/-- **C5.** A failing or throwing cache Load is resolved as a cache miss:
`cacheMiddleware` behaves on a rejected load exactly as on a resolved miss
(the error is caught and logged, never surfaced to the end caller), and on
a miss the request proceeds — with the save hook attached when the request
is cacheable — exactly as if nothing were cached. -/
theorem load_error_is_miss (req : Request) (msg : String) :
    cacheMiddleware req (.error msg) = cacheMiddleware req (.ok none) ∧
    cacheMiddleware req (.ok none)
      = (if cacheable req then MiddlewareOutcome.passWithHook
         else MiddlewareOutcome.passNoHook) := by
  unfold cacheMiddleware
  rcases h : cacheable req with _ | _ <;> simp [h]

/-! ## C6: save failures are best-effort -/

/-- **C6.** A Save whose underlying write fails returns a false success
flag and stores nothing (the failure is logged by the middleware hook,
which swallows it); and the in-flight request's response to the client —
status and body — is the upstream payload no matter how the save went: a
thrown save leaves exactly the primary response. -/
theorem save_failure_best_effort (s : CacheState) (url payload method : String)
    (body : Option String) (now : Nat) (upstream : String) :
    (save s url payload method body now false).1 = false ∧
    (save s url payload method body now false).2 = s ∧
    (∀ outcome : SaveOutcome, (apiCacheBranch upstream outcome).status = 200 ∧
      (apiCacheBranch upstream outcome).body = upstream) ∧
    (∀ msg : String, apiCacheBranch upstream (.threw msg)
      = { status := 200, body := upstream, xCacheHeader := none }) := by
  refine ⟨rfl, rfl, ?_, ?_⟩
  · intro outcome
    cases outcome <;> exact ⟨rfl, rfl⟩
  · intro msg
    rfl

/-! ## C7: startup behaviour on a failed cache initialization -/

/-- **C7 (counterexample).** The claim that a failed cache initialization
is fatal at startup is false on the code: with `initializeDatabase`
rejecting, the startup IIFE of `src/middleware/cache.js` catches and logs
the error and the process keeps running — it does not exit. -/
theorem startup_failure_not_fatal_cex :
    startupInit (Except.error "cannot open the metadata index")
      ≠ StartupOutcome.exited := by
  decide

/-- **C7 (amended).** If at startup the metadata index cannot be
initialized, the failure is caught and logged and the service keeps
running without its cache database ready; the initialization failure is
not fatal. -/
theorem startup_failure_logged_continues (msg : String) :
    startupInit (Except.error msg) = StartupOutcome.running false := rfl

/-! ## C8: the cache identity excludes the caller -/

/-- **C8.** `cacheMiddleware` passes only `(req.originalUrl, req.method,
req.body)` to the cache: two authenticated requests agreeing on those
three fields — whatever their users or headers — reach the cache with
identical arguments and derive the identical cache identity, so both
callers read and write the same cache entry. -/
theorem cache_identity_ignores_user (u m : String) (b : Option String)
    (ct1 ct2 ac1 ac2 user1 user2 : Option String) :
    cacheArgsOf (Request.mk m u b ct1 ac1 user1)
      = cacheArgsOf (Request.mk m u b ct2 ac2 user2) ∧
    identityOf (Request.mk m u b ct1 ac1 user1)
      = identityOf (Request.mk m u b ct2 ac2 user2) :=
  ⟨rfl, rfl⟩

/-! ## C9: non-cacheable requests bypass the cache entirely -/

/-- **C9.** A request whose method is neither GET nor POST, or which is
not an API request (no `application/json` content-type or accept header
and neither `/api/` nor `/alldata/` in the URL), gets no cache lookup and
no save hook: whatever the cache would have answered, `cacheMiddleware`
only calls `next()` — the response is never served from the cache and the
cache state is unchanged by the request. -/
theorem non_api_requests_bypass_cache (req : Request)
    (h : (req.method ≠ "GET" ∧ req.method ≠ "POST") ∨
      (optIncludes req.contentType "application/json" = false ∧
       optIncludes req.accept "application/json" = false ∧
       strIncludes req.originalUrl "/api/" = false ∧
       strIncludes req.originalUrl "/alldata/" = false)) :
    ∀ loadResult, cacheMiddleware req loadResult = .passNoHook := by
  intro loadResult
  have hc : cacheable req = false := by
    rcases h with ⟨h1, h2⟩ | ⟨h1, h2, h3, h4⟩
    · simp [cacheable, h1, h2]
    · simp [cacheable, isApiRequest, h1, h2, h3, h4]
  simp [cacheMiddleware, hc]

/-- **C9 (witness).** Concretely: a `DELETE /api/x` request is passed on
untouched even when the cache holds a value for it. -/
theorem non_api_requests_bypass_cache_w :
    cacheMiddleware (Request.mk "DELETE" "/api/x" none (some "application/json") none none)
      (.ok (some "cached")) = .passNoHook :=
  non_api_requests_bypass_cache _ (Or.inl ⟨by decide, by decide⟩) _

/-! ## C10: only 200 responses are written to the cache -/

/-- **C10.** `proxyRequest` saves an upstream response to the cache only
in the branch guarded by `response.status === 200`: if the dispatch runs
the cache-save branch, the upstream status was exactly 200 — a response
with any other status is never written to the cache. -/
theorem cache_write_only_on_200 (isFont isApi : Bool) (status : Nat) (hasHook : Bool)
    (h : proxyDispatch isFont isApi status hasHook = .cacheSaveAndJson) :
    status = 200 := by
  by_contra hne
  simp [proxyDispatch, hne] at h

/-- **C10 (witness).** The cache-save branch is reachable, at exactly
status 200. -/
theorem cache_write_only_on_200_w :
    proxyDispatch false true 200 true = ProxyAction.cacheSaveAndJson ∧ (200 : Nat) = 200 :=
  ⟨by decide, cache_write_only_on_200 false true 200 true (by decide)⟩

end AlldataProxy

